import Mathlib

/-!
Verification of the QueryVault proposition-indexing pipeline
(`src/chunking.py`): split a fixed text into paragraphs on blank-line
boundaries, extract propositions per paragraph via an external LLM, embed
each proposition, build `prop_<i>` vector records, upsert them into a
vector store, and fetch a few back.

Texts are modelled as `List Char` (Python `str`).  The LLM extractor and
the sentence embedder are external services and appear as function
parameters.  The Pinecone index is modelled from the spec as an id-keyed
map with `upsert` (overwrite by id) and `fetch` (omit absent ids).
-/

namespace QueryVault

/-- Python `str.isspace` restricted to the ASCII whitespace characters,
as used by `str.strip()`. -/
def pyIsSpace (c : Char) : Bool :=
  c = ' ' || c = '\t' || c = '\n' || c = '\r' || c = '\x0b' || c = '\x0c'

/-- Python `s.strip()`: drop leading and trailing whitespace. -/
def pyStrip (s : List Char) : List Char :=
  ((s.dropWhile pyIsSpace).reverse.dropWhile pyIsSpace).reverse

/-- Python `text.split("\n\n")` (src/chunking.py line 71): split on each
non-overlapping occurrence of the literal two-character separator,
scanning left to right. -/
def splitPP : List Char → List (List Char)
  | [] => [[]]
  | '\n' :: '\n' :: rest => [] :: splitPP rest
  | c :: rest =>
    match splitPP rest with
    | [] => [[c]]
    | p :: ps => (c :: p) :: ps

/-- Line 71: `paragraphs = [p.strip() for p in text.split("\n\n") if p.strip()]`. -/
def paragraphs (text : List Char) : List (List Char) :=
  ((splitPP text).map pyStrip).filter (fun p => !p.isEmpty)

/-- Lines 72-78: the `propositions` accumulator after the extraction loop —
per-paragraph extractor outputs concatenated in paragraph order. -/
def propositions (extract : List Char → List (List Char)) (text : List Char) :
    List (List Char) :=
  ((paragraphs text).map extract).flatten

/-- A Pinecone vector record as built on lines 88-92:
`id`, `values` (the embedding), `metadata` (here `content` mapped to the
proposition text). -/
structure VectorRecord where
  id : String
  values : List Float
  metadata : List (String × List Char)

/-- The id `f"prop_{i}"` assigned on line 89. -/
def mkId (i : Nat) : String := "prop_" ++ Nat.repr i

/-- Lines 85-92: the `vectors` accumulator — one record per proposition,
in order, with sequential ids and the proposition text in metadata. -/
def mkVectors (embed : List Char → List Float) (props : List (List Char)) :
    List VectorRecord :=
  props.enum.map fun p =>
    { id := mkId p.1, values := embed p.2, metadata := [("content", p.2)] }

/-- Modelled from the spec: the Pinecone index (external service) is an
id-keyed map from ids to records. -/
def Store : Type := String → Option VectorRecord

/-- Modelled from the spec: a store with no records. -/
def emptyStore : Store := fun _ => none

/-- Writing a single record: overwrite whatever was stored under its id. -/
def upsertOne (s : Store) (r : VectorRecord) : Store :=
  fun k => if k = r.id then some r else s k

/-- Modelled from the spec: `upsert(records)` writes a batch of records,
overwriting any existing record with the same id (line 94). -/
def upsert (s : Store) (rs : List VectorRecord) : Store :=
  rs.foldl upsertOne s

/-- Modelled from the spec: `fetch(ids)` returns the stored record for each
requested id and omits ids not found (line 108). -/
def fetch (s : Store) (ids : List String) : List (String × VectorRecord) :=
  ids.filterMap fun k => (s k).map (fun r => (k, r))

/-- Line 106: `ids_to_check = [f"prop_{i}" for i in range(5)]`. -/
def idsToCheck : List String := (List.range 5).map mkId

/-- The fixed input text of lines 57-69, with its single-newline line breaks
(some with a trailing space) inside paragraphs and blank lines between
them. -/
def text : List Char :=
  ("Text splitting in LangChain is a critical feature. Users can leverage LangChain for text splitting. LangChain allows users \n"
  ++ "to efficiently navigate and analyze vast amounts of text data. Text splitting with LangChain facilitates a deeper understanding \n"
  ++ "and more insightful conclusions.\n"
  ++ "\n"
  ++ "Text splitting facilitates the division of large texts into smaller, manageable segments.\n"
  ++ "This capability is vital for improving comprehension and processing efficiency.\n"
  ++ "It is especially important in tasks that require detailed analysis or extraction of specific contexts.\n"
  ++ "\n"
  ++ "ChatGPT was developed by OpenAI. OpenAI developed ChatGPT. ChatGPT represents a leap forward in natural language processing \n"
  ++ "technologies. ChatGPT is a conversational AI model. ChatGPT is capable of understanding and generating human-like text. ChatGPT \n"
  ++ "allows for dynamic interactions. ChatGPT provides responses that are remarkably coherent and contextually relevant. ChatGPT has \n"
  ++ "been integrated into a multitude of applications. ChatGPT revolutionized the way we interact with machines. ChatGPT \n"
  ++ "revolutionized the way we access information.").toList

/-! ### Decimal representations: `Nat.repr` is injective

`mkId` glues a decimal numeral onto `"prop_"`; distinctness of the ids
reduces to injectivity of `Nat.repr`, proved here through a structural
specification of `Nat.toDigitsCore`. -/

/-- Structural form of the digit list `Nat.toDigits 10` produces. -/
def decDigits (n : Nat) : List Char :=
  if n < 10 then [Nat.digitChar n]
  else decDigits (n / 10) ++ [Nat.digitChar (n % 10)]
termination_by n
decreasing_by exact Nat.div_lt_self (by omega) (by omega)

theorem decDigits_of_lt (n : Nat) (h : n < 10) :
    decDigits n = [Nat.digitChar n] := by
  rw [decDigits]
  simp [h]

theorem decDigits_of_ge (n : Nat) (h : ¬ n < 10) :
    decDigits n = decDigits (n / 10) ++ [Nat.digitChar (n % 10)] := by
  rw [decDigits]
  simp [h]

theorem toDigitsCore_eq_decDigits (fuel : Nat) :
    ∀ n ds, n < fuel → Nat.toDigitsCore 10 fuel n ds = decDigits n ++ ds := by
  induction fuel with
  | zero => intro n ds h; omega
  | succ fuel ih =>
    intro n ds h
    by_cases h10 : n < 10
    · have hz : n / 10 = 0 := by omega
      simp only [Nat.toDigitsCore, hz, if_pos]
      rw [decDigits_of_lt n h10, Nat.mod_eq_of_lt h10]
      simp
    · have hz : ¬ n / 10 = 0 := by omega
      simp only [Nat.toDigitsCore, hz, if_neg, if_false]
      rw [ih (n / 10) _ (by omega), decDigits_of_ge n h10]
      simp

theorem repr_eq_decDigits (n : Nat) : Nat.repr n = (decDigits n).asString := by
  unfold Nat.repr Nat.toDigits
  rw [toDigitsCore_eq_decDigits (n + 1) n [] (by omega), List.append_nil]

/-- Inverse of `Nat.digitChar` on decimal digits. -/
def unDigit (c : Char) : Nat := c.toNat - 48

/-- The numeric value of a decimal digit list. -/
def valOfDigits (ds : List Char) : Nat :=
  ds.foldl (fun a c => 10 * a + unDigit c) 0

theorem unDigit_digitChar (m : Nat) (h : m < 10) :
    unDigit (Nat.digitChar m) = m := by
  interval_cases m <;> decide

theorem valOfDigits_append_singleton (ds : List Char) (c : Char) :
    valOfDigits (ds ++ [c]) = 10 * valOfDigits ds + unDigit c := by
  simp [valOfDigits, List.foldl_append]

theorem valOfDigits_decDigits (n : Nat) : valOfDigits (decDigits n) = n := by
  induction n using decDigits.induct with
  | case1 n h =>
    rw [decDigits, if_pos h]
    simp [valOfDigits, unDigit_digitChar n h]
  | case2 n h ih =>
    rw [decDigits, if_neg h, valOfDigits_append_singleton, ih,
      unDigit_digitChar _ (by omega)]
    omega

theorem Nat_repr_injective : Function.Injective Nat.repr := by
  intro m n h
  rw [repr_eq_decDigits, repr_eq_decDigits] at h
  have hd : decDigits m = decDigits n := by
    have := congrArg String.data h
    simpa [List.asString] using this
  have := congrArg valOfDigits hd
  rwa [valOfDigits_decDigits, valOfDigits_decDigits] at this

theorem mkId_injective : Function.Injective mkId := by
  intro m n h
  apply Nat_repr_injective
  have := congrArg String.data h
  simp only [mkId] at this
  have h2 : ("prop_".data ++ (Nat.repr m).data : List Char)
      = "prop_".data ++ (Nat.repr n).data := by
    simpa [String.data_append] using this
  have h3 := List.append_cancel_left h2
  cases hm : Nat.repr m with
  | mk dm =>
    cases hn : Nat.repr n with
    | mk dn =>
      rw [hm, hn] at h3
      exact congrArg String.mk h3

/-! ### Store lemmas -/

/-- The last record of `rs` carrying id `k`, if any: the record that a batch
upsert leaves under `k`. -/
def lookupLast (rs : List VectorRecord) (k : String) : Option VectorRecord :=
  rs.reverse.find? (fun r => k = r.id)

theorem lookupLast_nil (k : String) : lookupLast [] k = none := rfl

theorem lookupLast_cons (r : VectorRecord) (rs : List VectorRecord)
    (k : String) :
    lookupLast (r :: rs) k
      = (lookupLast rs k).or (if k = r.id then some r else none) := by
  simp only [lookupLast, List.reverse_cons, List.find?_append]
  congr 1
  by_cases hk : k = r.id <;> simp [List.find?_cons, hk]

theorem lookupLast_eq_none_of_not_mem (rs : List VectorRecord) (k : String)
    (h : k ∉ rs.map VectorRecord.id) : lookupLast rs k = none := by
  rw [lookupLast, List.find?_eq_none]
  intro x hx
  simp only [decide_eq_true_eq]
  intro hk
  exact h (List.mem_map.mpr ⟨x, List.mem_reverse.mp hx, hk.symm⟩)

theorem upsert_apply (rs : List VectorRecord) :
    ∀ (s : Store) (k : String),
      upsert s rs k = (lookupLast rs k).elim (s k) some := by
  induction rs with
  | nil => intro s k; rfl
  | cons r rs ih =>
    intro s k
    have hstep : upsert s (r :: rs) = upsert (upsertOne s r) rs := rfl
    rw [hstep, ih (upsertOne s r) k, lookupLast_cons]
    rcases h : lookupLast rs k with _ | x
    · simp only [Option.or, Option.elim]
      by_cases hk : k = r.id
      · simp [hk, upsertOne]
      · simp [hk, upsertOne]
    · simp [Option.or, Option.elim]

theorem upsert_apply_of_not_mem (s : Store) (rs : List VectorRecord)
    (k : String) (h : k ∉ rs.map VectorRecord.id) : upsert s rs k = s k := by
  rw [upsert_apply, lookupLast_eq_none_of_not_mem rs k h]
  rfl

theorem lookupLast_of_mem_nodup (rs : List VectorRecord) (r : VectorRecord)
    (hnd : (rs.map VectorRecord.id).Nodup) (hr : r ∈ rs) :
    lookupLast rs r.id = some r := by
  induction rs with
  | nil => cases hr
  | cons a t ih =>
    rw [List.map_cons, List.nodup_cons] at hnd
    rcases List.mem_cons.mp hr with h | h
    · subst h
      rw [lookupLast_cons, lookupLast_eq_none_of_not_mem t r.id hnd.1]
      simp [Option.or]
    · rw [lookupLast_cons, ih hnd.2 h]
      simp [Option.or]

theorem upsert_apply_of_mem_nodup (s : Store) (rs : List VectorRecord)
    (r : VectorRecord) (hnd : (rs.map VectorRecord.id).Nodup) (hr : r ∈ rs) :
    upsert s rs r.id = some r := by
  rw [upsert_apply, lookupLast_of_mem_nodup rs r hnd hr]
  rfl

theorem upsert_apply_isSome (rs : List VectorRecord) (k : String)
    (h : (upsert emptyStore rs k).isSome = true) :
    k ∈ rs.map VectorRecord.id := by
  by_contra hk
  rw [upsert_apply_of_not_mem _ _ _ hk] at h
  simp [emptyStore] at h

/-! ### Vector-batch lemmas -/

theorem length_mkVectors (embed : List Char → List Float)
    (props : List (List Char)) :
    (mkVectors embed props).length = props.length := by
  simp [mkVectors]

theorem map_id_mkVectors (embed : List Char → List Float)
    (props : List (List Char)) :
    (mkVectors embed props).map VectorRecord.id
      = (List.range props.length).map mkId := by
  rw [mkVectors, List.map_map]
  have h : (VectorRecord.id ∘ fun p : Nat × List Char =>
      VectorRecord.mk (mkId p.1) (embed p.2) [("content", p.2)])
      = mkId ∘ Prod.fst := rfl
  rw [h, ← List.map_map, List.enum_map_fst]

theorem get_mkVectors (embed : List Char → List Float)
    (props : List (List Char)) (i : Nat) (h : i < props.length) :
    (mkVectors embed props).get ⟨i, by rw [length_mkVectors]; exact h⟩
      = { id := mkId i
          values := embed (props.get ⟨i, h⟩)
          metadata := [("content", props.get ⟨i, h⟩)] } := by
  simp only [mkVectors, List.get_eq_getElem, List.getElem_map]
  rw [List.getElem_enum]

theorem nodup_ids_mkVectors (embed : List Char → List Float)
    (props : List (List Char)) :
    ((mkVectors embed props).map VectorRecord.id).Nodup := by
  rw [map_id_mkVectors]
  exact (List.nodup_range _).map mkId_injective

/-! ### Splitting and stripping lemmas -/

theorem pyStrip_eq_rdropWhile (s : List Char) :
    pyStrip s = List.rdropWhile pyIsSpace (s.dropWhile pyIsSpace) := rfl

theorem pyStrip_contig (s : List Char) : pyStrip s <:+: s := by
  rw [pyStrip_eq_rdropWhile]
  exact (List.rdropWhile_prefix pyIsSpace _).isInfix.trans
    (List.dropWhile_suffix pyIsSpace).isInfix

theorem dropWhile_pyStrip (s : List Char) :
    List.dropWhile pyIsSpace (pyStrip s) = pyStrip s := by
  rcases hr : pyStrip s with _ | ⟨a, r⟩
  · rfl
  · have hpre : pyStrip s <+: s.dropWhile pyIsSpace := by
      rw [pyStrip_eq_rdropWhile]
      exact List.rdropWhile_prefix _ _
    obtain ⟨t, ht⟩ := hpre
    rw [hr] at ht
    have hhead : (s.dropWhile pyIsSpace).head? = some a := by
      rw [← ht]
      rfl
    have hna := List.head?_dropWhile_not pyIsSpace s
    rw [hhead] at hna
    simp only at hna
    rw [List.dropWhile_cons, hna]
    simp

theorem pyStrip_idem (s : List Char) : pyStrip (pyStrip s) = pyStrip s := by
  rw [pyStrip_eq_rdropWhile (pyStrip s), dropWhile_pyStrip,
    pyStrip_eq_rdropWhile s, List.rdropWhile_idempotent]

theorem splitPP_ne_nil (t : List Char) : splitPP t ≠ [] := by
  induction t using splitPP.induct with
  | case1 => simp [splitPP]
  | case2 rest ih =>
    rw [splitPP.eq_2]
    simp
  | case3 c rest hne hsp ih =>
    rw [splitPP.eq_3 c rest hne, hsp]
    simp
  | case4 c rest hne q qs hsp ih =>
    rw [splitPP.eq_3 c rest hne, hsp]
    simp

theorem splitPP_head_pre (t : List Char) :
    ∀ p ps, splitPP t = p :: ps → p <+: t := by
  induction t using splitPP.induct with
  | case1 =>
    intro p ps h
    simp only [splitPP, List.cons.injEq] at h
    exact h.1 ▸ List.nil_prefix
  | case2 rest ih =>
    intro p ps h
    rw [splitPP.eq_2] at h
    simp only [List.cons.injEq] at h
    exact h.1 ▸ List.nil_prefix
  | case3 c rest hne hsp ih =>
    intro p ps h
    rw [splitPP.eq_3 c rest hne, hsp] at h
    simp only [List.cons.injEq] at h
    exact h.1 ▸ ⟨rest, rfl⟩
  | case4 c rest hne q qs hsp ih =>
    intro p ps h
    rw [splitPP.eq_3 c rest hne, hsp] at h
    simp only [List.cons.injEq] at h
    obtain ⟨t0, ht0⟩ := ih q qs hsp
    exact h.1 ▸ ⟨t0, by rw [List.cons_append, ht0]⟩

theorem mem_splitPP_contig (t : List Char) :
    ∀ p ∈ splitPP t, p <:+: t := by
  induction t using splitPP.induct with
  | case1 =>
    intro p hp
    simp only [splitPP, List.mem_singleton] at hp
    simp [hp]
  | case2 rest ih =>
    intro p hp
    rw [splitPP.eq_2] at hp
    rcases List.mem_cons.mp hp with h | h
    · simp [h]
    · exact List.infix_cons (List.infix_cons (ih p h))
  | case3 c rest hne hsp ih =>
    intro p hp
    rw [splitPP.eq_3 c rest hne, hsp] at hp
    simp only [List.mem_singleton] at hp
    subst hp
    exact List.IsPrefix.isInfix ⟨rest, rfl⟩
  | case4 c rest hne q qs hsp ih =>
    intro p hp
    rw [splitPP.eq_3 c rest hne, hsp] at hp
    rcases List.mem_cons.mp hp with h | h
    · subst h
      obtain ⟨t0, ht0⟩ := splitPP_head_pre rest q qs hsp
      exact List.IsPrefix.isInfix ⟨t0, by rw [List.cons_append, ht0]⟩
    · exact List.infix_cons (ih p (hsp ▸ List.mem_cons_of_mem q h))

theorem splitPP_of_no_sep (t : List Char) (h : ¬ (['\n', '\n'] <:+: t)) :
    splitPP t = [t] := by
  induction t using splitPP.induct with
  | case1 => rfl
  | case2 rest ih =>
    exact absurd (List.IsPrefix.isInfix ⟨rest, rfl⟩) h
  | case3 c rest hne hsp ih =>
    exact absurd hsp (splitPP_ne_nil rest)
  | case4 c rest hne q qs hsp ih =>
    have hrest : splitPP rest = [rest] :=
      ih (fun hin => h (List.infix_cons hin))
    rw [splitPP.eq_3 c rest hne, hrest]

theorem mem_paragraphs (t : List Char) (p : List Char)
    (hp : p ∈ paragraphs t) :
    ∃ q ∈ splitPP t, p = pyStrip q ∧ p ≠ [] := by
  rw [paragraphs] at hp
  have hmem := List.mem_of_mem_filter hp
  have hfp := List.of_mem_filter hp
  obtain ⟨q, hq, hpq⟩ := List.mem_map.mp hmem
  refine ⟨q, hq, hpq.symm, ?_⟩
  intro hnil
  rw [hnil] at hfp
  simp at hfp

/-! ### The failing-extractor run (error model) -/

/-- Lines 75-78 when the extractor can raise: process paragraphs in order and
propagate the first failure. -/
def extractAllE {ε : Type} (extract : List Char → Except ε (List (List Char))) :
    List (List Char) → Except ε (List (List Char))
  | [] => Except.ok []
  | p :: ps => do
    let xs ← extract p
    let rest ← extractAllE extract ps
    pure (xs ++ rest)

/-- Lines 75-94 as one run over a starting store: extraction over all
paragraphs first; the single upsert only happens if no extraction failed,
otherwise the store is left untouched. -/
def runE {ε : Type} (extract : List Char → Except ε (List (List Char)))
    (embed : List Char → List Float) (t : List Char) (s0 : Store) :
    Except ε Unit × Store :=
  match extractAllE extract (paragraphs t) with
  | Except.error e => (Except.error e, s0)
  | Except.ok props => (Except.ok (), upsert s0 (mkVectors embed props))

theorem extractAllE_error {ε : Type}
    (extract : List Char → Except ε (List (List Char))) :
    ∀ ps : List (List Char), ∀ p ∈ ps, (extract p).isOk = false →
      ∃ e, extractAllE extract ps = Except.error e := by
  intro ps
  induction ps with
  | nil => intro p hp; cases hp
  | cons a t ih =>
    intro p hp hfail
    rcases List.mem_cons.mp hp with h | h
    · subst h
      rcases hx : extract p with e | v
      · exact ⟨e, by simp only [extractAllE, hx]; rfl⟩
      · rw [hx] at hfail
        simp [Except.isOk, Except.toBool] at hfail
    · rcases hx : extract a with e | v
      · exact ⟨e, by simp only [extractAllE, hx]; rfl⟩
      · obtain ⟨e, he⟩ := ih p h hfail
        exact ⟨e, by simp only [extractAllE, hx, he]; rfl⟩

/-! ### The vector-store call trace -/

/-- The vector-store verbs: the two consumed by the program plus the
update/delete verbs it never issues. -/
inductive StoreOp : Type where
  | upsertOp (rs : List VectorRecord) : StoreOp
  | fetchOp (ids : List String) : StoreOp
  | updateOp (id : String) : StoreOp
  | deleteOp (id : String) : StoreOp

/-- Whether an operation is the upsert verb. -/
def StoreOp.isUpsertOp : StoreOp → Bool
  | StoreOp.upsertOp _ => true
  | _ => false

/-- Whether an operation is the update verb. -/
def StoreOp.isUpdateOp : StoreOp → Bool
  | StoreOp.updateOp _ => true
  | _ => false

/-- Whether an operation is the delete verb. -/
def StoreOp.isDeleteOp : StoreOp → Bool
  | StoreOp.deleteOp _ => true
  | _ => false

/-- The straight-line sequence of vector-store calls a successful run makes:
the single batched upsert of line 94 followed by the verification fetch of
line 108. -/
def runTrace (extract : List Char → List (List Char))
    (embed : List Char → List Float) (t : List Char) : List StoreOp :=
  [StoreOp.upsertOp (mkVectors embed (propositions extract t)),
   StoreOp.fetchOp idsToCheck]

/-! ### The store after the upsert -/

theorem store_lookup_lt (embed : List Char → List Float)
    (props : List (List Char)) (i : Nat) (h : i < props.length) :
    upsert emptyStore (mkVectors embed props) (mkId i)
      = some { id := mkId i
               values := embed (props.get ⟨i, h⟩)
               metadata := [("content", props.get ⟨i, h⟩)] } := by
  have hlen : i < (mkVectors embed props).length := by
    rw [length_mkVectors]
    exact h
  have hget := get_mkVectors embed props i h
  have hmem : (mkVectors embed props).get ⟨i, hlen⟩ ∈ mkVectors embed props :=
    List.get_mem _ _ _
  have hid : ((mkVectors embed props).get ⟨i, hlen⟩).id = mkId i := by
    rw [hget]
  have := upsert_apply_of_mem_nodup emptyStore (mkVectors embed props)
    ((mkVectors embed props).get ⟨i, hlen⟩) (nodup_ids_mkVectors embed props)
    hmem
  rw [hid, hget] at this
  exact this

theorem store_lookup_ge (embed : List Char → List Float)
    (props : List (List Char)) (i : Nat) (h : ¬ i < props.length) :
    upsert emptyStore (mkVectors embed props) (mkId i) = none := by
  have hnot : mkId i ∉ (mkVectors embed props).map VectorRecord.id := by
    rw [map_id_mkVectors]
    intro hmem
    obtain ⟨j, hj, hji⟩ := List.mem_map.mp hmem
    exact h (mkId_injective hji ▸ List.mem_range.mp hj)
  rw [upsert_apply_of_not_mem _ _ _ hnot]
  rfl

theorem fetch_upsert_range_map_fst (embed : List Char → List Float)
    (props : List (List Char)) :
    ∀ m : Nat,
      (fetch (upsert emptyStore (mkVectors embed props))
          ((List.range m).map mkId)).map Prod.fst
        = (List.range (min m props.length)).map mkId := by
  intro m
  induction m with
  | zero => simp [fetch]
  | succ m ih =>
    rw [List.range_succ, List.map_append, fetch, List.filterMap_append,
      List.map_append]
    rw [fetch] at ih
    rw [ih]
    by_cases hm : m < props.length
    · have hmin : min (m + 1) props.length = min m props.length + 1 := by
        omega
      have hmin2 : min m props.length = m := by omega
      rw [hmin, hmin2, List.range_succ, List.map_append]
      congr 1
      simp [List.filterMap_cons, store_lookup_lt embed props m hm]
    · have hmin : min (m + 1) props.length = min m props.length := by omega
      rw [hmin]
      simp [List.filterMap_cons, store_lookup_ge embed props m hm]

/-! ### Concrete stand-ins used by the scenario claim and the witnesses -/

/-- The stub extractor of the end-to-end scenario: every paragraph yields the
two propositions "A." and "B.". -/
def stubExtract : List Char → List (List Char) :=
  fun _ => ["A.".toList, "B.".toList]

/-- A concrete 384-dimensional embedder stand-in. -/
def embedStub : List Char → List Float :=
  fun _ => List.replicate 384 (0.0 : Float)

/-- A concrete always-failing extractor stand-in. -/
def failExtract : List Char → Except Nat (List (List Char)) :=
  fun _ => Except.error 7

/-! ### The claims -/

/-- C1: a run that extracts N propositions upserts records whose ids are
exactly `prop_0 .. prop_{N-1}` in order, no other id is ever present in the
store, and the record stored under `prop_i` carries the i-th proposition's
original text in its metadata, so fetching that id returns that text. -/
theorem claim1_upsert_writes_exactly_the_propositions
    (extract : List Char → List (List Char)) (embed : List Char → List Float)
    (t : List Char) :
    (mkVectors embed (propositions extract t)).map VectorRecord.id
        = (List.range (propositions extract t).length).map mkId
    ∧ (∀ k, (upsert emptyStore (mkVectors embed (propositions extract t))
          k).isSome = true →
        ∃ i, i < (propositions extract t).length ∧ k = mkId i)
    ∧ ∀ i, (hi : i < (propositions extract t).length) →
        upsert emptyStore (mkVectors embed (propositions extract t)) (mkId i)
            = some { id := mkId i
                     values := embed ((propositions extract t).get ⟨i, hi⟩)
                     metadata :=
                       [("content", (propositions extract t).get ⟨i, hi⟩)] }
          ∧ fetch (upsert emptyStore (mkVectors embed (propositions extract t)))
               [mkId i]
              = [(mkId i,
                  { id := mkId i
                    values := embed ((propositions extract t).get ⟨i, hi⟩)
                    metadata :=
                      [("content", (propositions extract t).get ⟨i, hi⟩)] })] := by
  refine ⟨map_id_mkVectors embed (propositions extract t), ?_, ?_⟩
  · intro k hk
    have hmem := upsert_apply_isSome (mkVectors embed (propositions extract t))
      k hk
    rw [map_id_mkVectors] at hmem
    obtain ⟨i, hi, hik⟩ := List.mem_map.mp hmem
    exact ⟨i, List.mem_range.mp hi, hik.symm⟩
  · intro i hi
    refine ⟨store_lookup_lt embed (propositions extract t) i hi, ?_⟩
    simp [fetch, store_lookup_lt embed (propositions extract t) i hi]

/-- C1 witness: on a two-paragraph input with a one-proposition-per-paragraph
stub, the record fetched under prop_1 holds the second proposition. -/
theorem claim1_witness :
    upsert emptyStore
        (mkVectors embedStub (propositions stubExtract "A\n\nB".toList))
        (mkId 1)
      = some { id := mkId 1
               values := embedStub
                 ((propositions stubExtract "A\n\nB".toList).get ⟨1, by decide⟩)
               metadata :=
                 [("content",
                   (propositions stubExtract "A\n\nB".toList).get
                     ⟨1, by decide⟩)] } :=
  ((claim1_upsert_writes_exactly_the_propositions stubExtract embedStub
    "A\n\nB".toList).2.2 1 (by decide)).1

/-- C2: the number of vector records built for the upsert equals the total
number of propositions extracted across all paragraphs, for every extractor
output and every input. -/
theorem claim2_vector_count_eq_proposition_count
    (extract : List Char → List (List Char)) (embed : List Char → List Float)
    (t : List Char) :
    (mkVectors embed (propositions extract t)).length
      = (propositions extract t).length :=
  length_mkVectors embed (propositions extract t)

/-- C3: every paragraph produced from an input string is a contiguous block
(an infix) of that string, is unchanged by stripping, and is non-empty —
blank blocks have been dropped. -/
theorem claim3_paragraphs_contiguous_nonblank (t p : List Char)
    (hp : p ∈ paragraphs t) :
    p <:+: t ∧ pyStrip p = p ∧ p ≠ [] := by
  obtain ⟨q, hq, hpq, hne⟩ := mem_paragraphs t p hp
  subst hpq
  exact ⟨(pyStrip_contig q).trans (mem_splitPP_contig t q hq),
    pyStrip_idem q, hne⟩

/-- C3 witness: the first paragraph of "A\n\nB". -/
theorem claim3_witness :
    ("A".toList <:+: "A\n\nB".toList)
      ∧ pyStrip "A".toList = "A".toList ∧ "A".toList ≠ [] :=
  claim3_paragraphs_contiguous_nonblank "A\n\nB".toList "A".toList (by decide)

set_option maxRecDepth 100000 in
/-- C4: the fixed 3-paragraph input yields exactly 3 paragraph units; with
the stub extractor returning "A." and "B." per paragraph, the run
accumulates exactly 6 propositions and builds 6 records with ids prop_0
through prop_5, whatever the embedder returns. -/
theorem claim4_end_to_end_scenario (embed : List Char → List Float) :
    (paragraphs text).length = 3
    ∧ (propositions stubExtract text).length = 6
    ∧ (mkVectors embed (propositions stubExtract text)).map VectorRecord.id
        = ["prop_0", "prop_1", "prop_2", "prop_3", "prop_4", "prop_5"] := by
  refine ⟨by decide, by decide, ?_⟩
  rw [map_id_mkVectors]
  have h6 : (propositions stubExtract text).length = 6 := by decide
  rw [h6]
  decide

/-- C5: upsert is idempotent in the ids — re-running the same batch
overwrites rather than duplicates, so upserting a batch twice leaves the
store exactly as upserting it once, from any starting store. -/
theorem claim5_upsert_idempotent (s : Store) (rs : List VectorRecord) :
    upsert (upsert s rs) rs = upsert s rs := by
  funext k
  rw [upsert_apply, upsert_apply]
  cases h : lookupLast rs k <;> rfl

/-- C6: if the extractor fails on any paragraph, the run aborts with an
error and the store is left exactly as it started — no vector record is
written in that run. -/
theorem claim6_failure_aborts_without_writes {ε : Type}
    (extract : List Char → Except ε (List (List Char)))
    (embed : List Char → List Float) (t : List Char) (s0 : Store)
    (h : ∃ p ∈ paragraphs t, (extract p).isOk = false) :
    (runE extract embed t s0).2 = s0
      ∧ ∃ e, (runE extract embed t s0).1 = Except.error e := by
  obtain ⟨p, hp, hfail⟩ := h
  obtain ⟨e, he⟩ := extractAllE_error extract (paragraphs t) p hp hfail
  have h2 : runE extract embed t s0 = (Except.error e, s0) := by
    simp only [runE, he]
  rw [h2]
  exact ⟨rfl, e, rfl⟩

/-- C6 witness: an always-failing extractor on a one-paragraph input leaves
the empty store empty and yields an error. -/
theorem claim6_witness :
    (runE failExtract embedStub "hi".toList emptyStore).2 = emptyStore
      ∧ ∃ e, (runE failExtract embedStub "hi".toList emptyStore).1
          = Except.error e :=
  claim6_failure_aborts_without_writes failExtract embedStub "hi".toList
    emptyStore ⟨"hi".toList, by decide, rfl⟩

/-- C7: when the embedder returns a sequence of exactly 384 floats on every
input — the configured fixed dimension — every record built carries a
values field of length 384 which is the embedder's output for the
proposition recorded in its metadata, unchanged. -/
theorem claim7_embedding_dimension_and_values
    (embed : List Char → List Float) (props : List (List Char))
    (hdim : ∀ s, (embed s).length = 384) :
    ∀ r ∈ mkVectors embed props,
      r.values.length = 384
        ∧ ∃ p ∈ props, r.values = embed p ∧ r.metadata = [("content", p)] := by
  intro r hr
  rw [mkVectors] at hr
  obtain ⟨⟨i, p⟩, hip, hrec⟩ := List.mem_map.mp hr
  have hp : p ∈ props := by
    rw [List.enum_eq_zip_range] at hip
    exact (List.of_mem_zip hip).2
  refine ⟨?_, p, hp, ?_, ?_⟩
  · rw [← hrec]
    exact hdim p
  · rw [← hrec]
  · rw [← hrec]

/-- C7 witness: the single record built from one proposition under the
concrete 384-dimensional embedder stand-in. -/
theorem claim7_witness :
    (VectorRecord.mk (mkId 0) (embedStub "x".toList)
        [("content", "x".toList)]).values.length = 384
      ∧ ∃ p ∈ ["x".toList],
          (VectorRecord.mk (mkId 0) (embedStub "x".toList)
              [("content", "x".toList)]).values = embedStub p
            ∧ (VectorRecord.mk (mkId 0) (embedStub "x".toList)
                [("content", "x".toList)]).metadata = [("content", p)] :=
  claim7_embedding_dimension_and_values embedStub ["x".toList]
    (fun _ => List.length_replicate 384 (0.0 : Float))
    (VectorRecord.mk (mkId 0) (embedStub "x".toList) [("content", "x".toList)])
    (List.mem_singleton.mpr rfl)

/-- C8: the run's vector-store interaction is write-once: exactly one upsert
call in the whole trace, and no update or delete verb anywhere in it, so a
written record is never changed within the run. -/
theorem claim8_single_upsert_no_mutation
    (extract : List Char → List (List Char)) (embed : List Char → List Float)
    (t : List Char) :
    (runTrace extract embed t).countP StoreOp.isUpsertOp = 1
      ∧ ∀ op ∈ runTrace extract embed t,
          op.isUpdateOp = false ∧ op.isDeleteOp = false := by
  refine ⟨rfl, ?_⟩
  intro op hop
  rcases List.mem_cons.mp hop with h | h
  · subst h
    exact ⟨rfl, rfl⟩
  · rw [List.mem_singleton] at h
    subst h
    exact ⟨rfl, rfl⟩

/-- C9: the paragraph separator is the literal two-character sequence of two
newlines: an input with no occurrence of that exact sequence — even one
with a whitespace-only line rendering as blank — stays a single paragraph
unit (after stripping), rather than being split. -/
theorem claim9_separator_is_literal_newlines (t : List Char)
    (h : ¬ (['\n', '\n'] <:+: t)) :
    paragraphs t = if pyStrip t = [] then [] else [pyStrip t] := by
  rw [paragraphs, splitPP_of_no_sep t h]
  by_cases hs : pyStrip t = []
  · simp [hs]
  · simp [hs, List.isEmpty_iff]

/-- C9 witness: "A\n \nB" renders with a blank-looking line but contains no
literal double newline, so it stays one paragraph containing that line. -/
theorem claim9_witness :
    paragraphs "A\n \nB".toList = ["A\n \nB".toList] := by
  have h := claim9_separator_is_literal_newlines "A\n \nB".toList (by decide)
  rw [h]
  decide

/-- C10: the verification step always fetches the five fixed ids prop_0 ..
prop_4; the response holds exactly min(N, 5) records — ids never written
are simply omitted — and its ids are prop_0 .. prop_{min(N,5)-1}. -/
theorem claim10_fetch_fixed_ids
    (extract : List Char → List (List Char)) (embed : List Char → List Float)
    (t : List Char) :
    (fetch (upsert emptyStore (mkVectors embed (propositions extract t)))
          idsToCheck).map Prod.fst
        = (List.range (min 5 (propositions extract t).length)).map mkId
    ∧ (fetch (upsert emptyStore (mkVectors embed (propositions extract t)))
          idsToCheck).length
        = min 5 (propositions extract t).length := by
  have h := fetch_upsert_range_map_fst embed (propositions extract t) 5
  rw [idsToCheck]
  refine ⟨h, ?_⟩
  have hlen := congrArg List.length h
  rw [List.length_map, List.length_map, List.length_range] at hlen
  exact hlen

end QueryVault

